import Mathlib

/-!
# Verification of `binit` (timestamp alignment and binning)

Shallow embedding of `src/binit/align.py` and `src/binit/bin.py`.

Conventions of the embedding:
* numpy 1-d float arrays are `List ℚ` (the library only ever compares,
  subtracts and searches, so exact rationals model the float arithmetic on
  the inputs the claims use);
* `np.nan` (the missing sentinel) is `none` in `Option ℚ`; every IEEE
  comparison with NaN is false, which is how `Option` values are compared
  below (`none ≥ c` is false, `none = some k` is false);
* vectorized numpy expressions are elementwise `List.map`s;
* numpy / python negative indexing (`a[-1]` is the last element) is modelled
  by `pyGet`; out-of-bounds access (numpy raises) never occurs under the
  hypotheses of the theorems, `getD`'s default is never reached there.
-/

namespace Binit

/-- `np.searchsorted(a, v)` with the default `side='left'`: the first index
`i` with `v ≤ a i`, or `a.length` when there is none. -/
def searchsortedLeft (a : List ℚ) (v : ℚ) : Nat :=
  match a with
  | [] => 0
  | y :: ys => if v ≤ y then 0 else searchsortedLeft ys v + 1

/-- `np.searchsorted(a, v, side='right')`: the first index `i` with
`v < a i`, or `a.length` when there is none.  `np.digitize(v, bins)` for
increasing `bins` equals this. -/
def searchsortedRight (a : List ℚ) (v : ℚ) : Nat :=
  match a with
  | [] => 0
  | y :: ys => if v < y then 0 else searchsortedRight ys v + 1

/-- Python / numpy indexing with negative wraparound: index `-k` means
`length - k`. -/
def pyGet (l : List ℚ) (i : Int) : ℚ :=
  if i < 0 then l.getD (l.length - (-i).toNat) 0 else l.getD i.toNat 0

/-- `np.max` of a (nonempty) array. -/
def npMax (l : List ℚ) : ℚ :=
  l.foldl max (l.headD 0)

/-! ## `align.py` -/

/-- Elementwise body of `_align_to(to_be_aligned, to_align_to, no_beyond=False)`
(the form `align_around` calls): `idx = np.searchsorted(to_align_to, x)`,
`aligned = x - to_align_to[idx - 1]` (negative indexing wraps when
`idx = 0`), and negative latencies are masked to NaN. -/
def align_to_elem (to_align_to : List ℚ) (x : ℚ) : Option ℚ :=
  let idx : Int := (searchsortedLeft to_align_to x : Int)
  let r := pyGet to_align_to (idx - 1)
  let d := x - r
  if d < 0 then none else some d

/-- The extended reference array built inside `_negative_align`:
`np.concatenate([to_align_to, [np.max(to_align_to) + 100]])`. -/
def negExtended (to_align_to : List ℚ) : List ℚ :=
  to_align_to ++ [npMax to_align_to + 100]

/-- The per-element index used by `_negative_align`:
`idx = np.searchsorted(extended, x)` followed by `idx[idx < max_idx] += 1`
where `max_idx = len(extended) - 1`. -/
def negAlignIdx (to_align_to : List ℚ) (x : ℚ) : Nat :=
  let ext := negExtended to_align_to
  let maxIdx := ext.length - 1
  let idx := searchsortedLeft ext x
  if idx < maxIdx then idx + 1 else idx

/-- The reference element `_negative_align` subtracts for `x`:
`extended[idx - 1]`. -/
def negAlignTarget (to_align_to : List ℚ) (x : ℚ) : ℚ :=
  pyGet (negExtended to_align_to) ((negAlignIdx to_align_to x : Int) - 1)

/-- Elementwise body of `_negative_align(to_be_aligned, to_align_to,
no_before=False)` (the form `align_around` calls): positive latencies are
masked to NaN. -/
def neg_align_elem (to_align_to : List ℚ) (x : ℚ) : Option ℚ :=
  let d := x - negAlignTarget to_align_to x
  if d > 0 then none else some d

/-- The merge in `align_around`:
`np.where(negative_latencies >= (t_before * -1), negative_latencies,
positive_latencies)`.  A NaN backward latency compares false and selects the
forward latency. -/
def mergeLat (t_before : ℚ) (neg pos : Option ℚ) : Option ℚ :=
  match neg with
  | some v => if v ≥ -t_before then some v else pos
  | none => pos

/-- The cutoff in `align_around`: `if max_latency:` (Python truthiness — a
zero `max_latency` skips the cutoff) then
`latencies[latencies > max_latency] = np.nan`. -/
def cutoffLat (max_latency : Option ℚ) (lat : Option ℚ) : Option ℚ :=
  match max_latency with
  | none => lat
  | some m =>
    if m = 0 then lat
    else match lat with
      | some v => if v > m then none else some v
      | none => none

/-- Elementwise `align_around` before the drop step: forward pass, optional
backward pass and merge, optional cutoff. -/
def align_around_elem (to_align_to : List ℚ) (t_before : Option ℚ)
    (max_latency : Option ℚ) (x : ℚ) : Option ℚ :=
  let pos := align_to_elem to_align_to x
  let lat :=
    match t_before with
    | some tb => mergeLat tb (neg_align_elem to_align_to x) pos
    | none => pos
  cutoffLat max_latency lat

/-- `align_around(to_be_aligned, to_align_to, t_before, max_latency, drop)`:
the elementwise latency pipeline over the array, then
`latencies[np.logical_not(np.isnan(latencies))]` when `drop` is true. -/
def align_around (to_be_aligned to_align_to : List ℚ) (t_before : Option ℚ)
    (max_latency : Option ℚ) (drop : Bool) : List (Option ℚ) :=
  let latencies := to_be_aligned.map (align_around_elem to_align_to t_before max_latency)
  if drop then latencies.filter (fun o => o.isSome) else latencies

namespace Validation

/-!
Eager validation of `_align_to` / `_negative_align` (`align.py`).  Only the
data the checks inspect is modelled: whether each argument is iterable,
whether it is an `np.ndarray`, and its number of dimensions. -/

/-- An argument as seen by the validation code of `align.py`. -/
structure PyObj where
  iterable : Bool
  isNdarray : Bool
  ndim : Nat
deriving DecidableEq

/-- The exceptions `align.py` raises eagerly. -/
inductive AlignError where
  /-- `TypeError("... At least argument must be an iterable")` -/
  | notIterable
  /-- `TypeError("Both arrays must be numpy arrays ...")` -/
  | notNdarray
  /-- `ValueError("Must Pass in flat numpy arrays ...")` -/
  | invalidShape
deriving DecidableEq

/-- The spec's error taxonomy: both `TypeError`s are `InvalidArgument`; the
shape `ValueError` is `InvalidShape`. -/
def AlignError.isInvalidArgument : AlignError → Bool
  | .notIterable => true
  | .notNdarray => true
  | .invalidShape => false

/-- The validation sequence at the top of
`_align_to(to_be_aligned, to_align_to)`, in source order:
1. `if not _to_align_to_isiter and _to_be_aligned_isiter: raise TypeError`
2. `if not isinstance(to_be_aligned, np.ndarray) or not isinstance(to_align_to, np.ndarray): raise TypeError`
3. `if not len(to_align_to.shape) == 1 and not len(to_be_aligned.shape) == 1: raise ValueError` -/
def align_to_validate (to_be_aligned to_align_to : PyObj) :
    Except AlignError Unit :=
  if ¬ to_align_to.iterable ∧ to_be_aligned.iterable then .error .notIterable
  else if ¬ to_be_aligned.isNdarray ∨ ¬ to_align_to.isNdarray then .error .notNdarray
  else if to_align_to.ndim ≠ 1 ∧ to_be_aligned.ndim ≠ 1 then .error .invalidShape
  else .ok ()

/-- The validation sequence at the top of
`_negative_align(to_be_aligned, to_align_to)`: the same two `TypeError`
checks as `_align_to`, and no shape check at all. -/
def negative_align_validate (to_be_aligned to_align_to : PyObj) :
    Except AlignError Unit :=
  if ¬ to_align_to.iterable ∧ to_be_aligned.iterable then .error .notIterable
  else if ¬ to_be_aligned.isNdarray ∨ ¬ to_align_to.isNdarray then .error .notNdarray
  else .ok ()

end Validation

/-! ## `bin.py` -/

/-- `np.digitize(x, bins)` for increasing `bins` (the numpy documentation:
equivalent to `np.searchsorted(bins, x, side='right')`). -/
def npDigitize (x : ℚ) (bins : List ℚ) : Nat :=
  searchsortedRight bins x

/-- The shifted edge array `which_bin` digitizes against: `bin_edges -
time_before` when `time_before` is given, `bin_edges` otherwise. -/
def shiftedEdges (bin_edges : List ℚ) (time_before : Option ℚ) : List ℚ :=
  match time_before with
  | some t => bin_edges.map (fun e => e - t)
  | none => bin_edges

/-- Elementwise body of `which_bin(arr, bin_edges, time_before,
nan_vals_before_first_bin, nan_vals_occuring_x_after_last_bin)`:
`idx = np.digitize(x, shifted) - 1`, `bin_value = bin_edges[idx]` (negative
indexing wraps `idx = -1` to the last edge), then the two optional NaN
masks in source order. -/
def which_bin_elem (bin_edges : List ℚ) (time_before : Option ℚ)
    (nan_vals_before_first_bin : Bool)
    (nan_vals_occuring_x_after_last_bin : Option ℚ) (x : ℚ) : Option ℚ :=
  let idx : Int := (npDigitize x (shiftedEdges bin_edges time_before) : Int) - 1
  let v := pyGet bin_edges idx
  if nan_vals_before_first_bin ∧ idx < 0 then none
  else
    match nan_vals_occuring_x_after_last_bin with
    | some L => if x - npMax bin_edges > L then none else some v
    | none => some v

/-- `which_bin` over the whole array. -/
def which_bin (arr bin_edges : List ℚ) (time_before : Option ℚ)
    (nan_vals_before_first_bin : Bool)
    (nan_vals_occuring_x_after_last_bin : Option ℚ) : List (Option ℚ) :=
  arr.map (which_bin_elem bin_edges time_before nan_vals_before_first_bin
    nan_vals_occuring_x_after_last_bin)

/-- Elementwise body of `which_bin_idx`: same digitize step, but the result
is the (float-cast) index itself; `idx = -1` is returned as `-1.0` unless
masked. -/
def which_bin_idx_elem (bin_edges : List ℚ) (time_before : Option ℚ)
    (nan_vals_before_first_bin : Bool)
    (nan_vals_occuring_x_after_last_bin : Option ℚ) (x : ℚ) : Option Int :=
  let idx : Int := (npDigitize x (shiftedEdges bin_edges time_before) : Int) - 1
  if nan_vals_before_first_bin ∧ idx < 0 then none
  else
    match nan_vals_occuring_x_after_last_bin with
    | some L => if x - npMax bin_edges > L then none else some idx
    | none => some idx

/-- `which_bin_idx` over the whole array. -/
def which_bin_idx (arr bin_edges : List ℚ) (time_before : Option ℚ)
    (nan_vals_before_first_bin : Bool)
    (nan_vals_occuring_x_after_last_bin : Option ℚ) : List (Option Int) :=
  arr.map (which_bin_idx_elem bin_edges time_before nan_vals_before_first_bin
    nan_vals_occuring_x_after_last_bin)

/-- Insert a value into a strictly sorted list, keeping it strictly sorted
(duplicates collapse). -/
def insertUnique (x : ℚ) : List ℚ → List ℚ
  | [] => [x]
  | y :: ys => if x < y then x :: y :: ys else if x = y then y :: ys else y :: insertUnique x ys

/-- `np.unique`: the distinct values of a list in ascending order. -/
def npUnique (l : List ℚ) : List ℚ :=
  l.foldr insertUnique []

/-- `split_by_bin(arr, bins, max_latency, time_before)`: bin values via
`which_bin(arr, bins, nan_vals_occuring_x_after_last_bin=max_latency,
time_before=time_before)`, then an ordered dict mapping each non-NaN unique
bin value `k` to `arr[bin_vals == k] - k` (a NaN bin value never equals
`k`, so NaN-assigned timestamps are dropped). -/
def split_by_bin (arr bins : List ℚ) (max_latency : Option ℚ)
    (time_before : Option ℚ) : List (ℚ × List ℚ) :=
  let bin_vals := arr.map (which_bin_elem bins time_before false max_latency)
  (npUnique (bin_vals.filterMap id)).map (fun k =>
    (k, (arr.zip bin_vals).filterMap
      (fun p => if p.2 = some k then some (p.1 - k) else none)))

/-- One bin of `np.histogram(arr, bins)`: the count of values in
`[lo, hi)`, except that the last bin is closed (`[lo, hi]`). -/
def histBinCount (arr : List ℚ) (lo hi : ℚ) (isLast : Bool) : Nat :=
  (arr.filter (fun x =>
    decide (lo ≤ x) && (if isLast then decide (x ≤ hi) else decide (x < hi)))).length

/-- `np.histogram(arr, bins=bins)[0]` for a given ascending edge array:
`bins.length - 1` counts. -/
def npHistogram (arr bins : List ℚ) : List Nat :=
  (List.range (bins.length - 1)).map (fun i =>
    histBinCount arr (bins.getD i 0) (bins.getD (i + 1) 0) (i = bins.length - 2))

/-- `binned_array_bins_provided(arr, bins)`: `np.histogram` then return the
python tuple `(edges[1:], values)`. -/
def binned_array_bins_provided (arr bins : List ℚ) : List ℚ × List Nat :=
  (bins.drop 1, npHistogram arr bins)

/-- The edge array built by `bin_array_around_event`:
`np.repeat(timestamps_to_bin_around, 2)` followed by `bins[1::2] += binsize`,
i.e. each event contributes `[t, t + binsize]`. -/
def eventBins (timestamps_to_bin_around : List ℚ) (binsize : ℚ) : List ℚ :=
  timestamps_to_bin_around.flatMap (fun t => [t, t + binsize])

/-- Every other element of a list, from the first: the python slice `[::2]`. -/
def sliceStep2 {γ : Type} : List γ → List γ
  | [] => []
  | [a] => [a]
  | a :: _ :: rest => a :: sliceStep2 rest

/-- A python 2-tuple holding values of two different types, as the heterogeneous
list `[inl fst, inr snd]` — the form on which the slice `[::2]` acts. -/
def pyTuple2 {α β : Type} (p : α × β) : List (α ⊕ β) :=
  [Sum.inl p.1, Sum.inr p.2]

/-- `bin_array_around_event(arr, timestamps_to_bin_around, binsize)`:
builds the event edge array, calls `binned_array_bins_provided`, and then
evaluates `spikecounts[::2]` — where `spikecounts` is the *tuple*
`(edges[1:], values)` returned by `binned_array_bins_provided`, so the
slice acts on the 2-tuple and yields the 1-tuple `(edges[1:],)`. -/
def bin_array_around_event (arr timestamps_to_bin_around : List ℚ)
    (binsize : ℚ) : List (List ℚ ⊕ List Nat) :=
  let bins := eventBins timestamps_to_bin_around binsize
  let spikecounts := binned_array_bins_provided arr bins
  sliceStep2 (pyTuple2 spikecounts)

end Binit

namespace Binit

section
-- core marks rational arithmetic irreducible, which blocks kernel evaluation
-- of concrete instances; restore the default reducibility locally.
attribute [local semireducible] Rat.add Rat.sub Rat.mul Rat.inv

-- sanity checks (claims' concrete inputs)
example : align_around [(17/2 : ℚ)] [0, 10] (some 2) none false = [some (-(3/2))] := by decide
example : align_around [(79/10 : ℚ)] [0, 10] (some 2) none false = [some (79/10)] := by decide
example : align_around [(6 : ℚ), 4] [0] none (some 5) false = [none, some 4] := by decide
example : align_around [(4 : ℚ)] [0] none (some 0) false = [some 4] := by decide
example : align_around [(10 : ℚ)] [0, 10] none none false = [some 10] := by decide
example : align_around [(10 : ℚ)] [0, 10] (some 2) none false = [some 0] := by decide

example : which_bin [(0 : ℚ)] [1, 2] none false none = [some 2] := by decide
example : which_bin [(0 : ℚ)] [1, 2] none true none = [none] := by decide
example : which_bin_idx [(0 : ℚ)] [1, 2] none false none = [some (-1)] := by decide
example : split_by_bin [(1 : ℚ), 2, 3, 10] [0, 9] none none =
    [(0, [1, 2, 3]), (9, [1])] := by decide
example : npHistogram [(1 : ℚ), 2, 3, 10] [0, 5, 9, 14] = [3, 0, 1] := by decide
example : bin_array_around_event [(1 : ℚ), 2, 3, 10] [0, 9] 5 =
    [Sum.inl [5, 9, 14]] := by decide
example : sliceStep2 (npHistogram [(1 : ℚ), 2, 3, 10] (eventBins [0, 9] 5)) =
    [3, 1] := by decide
example : Validation.align_to_validate ⟨false, false, 0⟩ ⟨false, false, 0⟩ =
    .error .notNdarray := rfl
example : Validation.align_to_validate ⟨true, true, 2⟩ ⟨true, true, 1⟩ =
    .ok () := rfl

/-! ## Helper lemmas -/

theorem neg_align_elem_nonpos {r : List ℚ} {x v : ℚ}
    (h : neg_align_elem r x = some v) : v ≤ 0 := by
  simp only [neg_align_elem] at h
  split at h
  · exact Option.noConfusion h
  · rename_i hd
    obtain rfl : _ = v := Option.some.inj h
    exact not_lt.mp hd

theorem cutoffLat_le {m : ℚ} {lat : Option ℚ} {v : ℚ} (hm : m ≠ 0)
    (h : cutoffLat (some m) lat = some v) : v ≤ m := by
  simp only [cutoffLat, if_neg hm] at h
  cases lat with
  | none => exact Option.noConfusion h
  | some w =>
    simp only at h
    split at h
    · exact Option.noConfusion h
    · rename_i hw
      obtain rfl : w = v := Option.some.inj h
      exact not_lt.mp hw

theorem searchsortedLeft_le_length (a : List ℚ) (v : ℚ) :
    searchsortedLeft a v ≤ a.length := by
  induction a with
  | nil => simp [searchsortedLeft]
  | cons y ys ih =>
    simp only [searchsortedLeft, List.length_cons]
    split
    · omega
    · omega

theorem getD_lt_of_lt_searchsortedLeft {a : List ℚ} {v : ℚ} {j : ℕ}
    (hj : j < searchsortedLeft a v) : a.getD j 0 < v := by
  induction a generalizing j with
  | nil => simp [searchsortedLeft] at hj
  | cons y ys ih =>
    simp only [searchsortedLeft] at hj
    split at hj
    · omega
    · rename_i hy
      cases j with
      | zero => simpa using not_le.mp hy
      | succ j => exact ih (by omega)

theorem searchsortedLeft_append (l₁ l₂ : List ℚ) (v : ℚ) :
    searchsortedLeft (l₁ ++ l₂) v =
      if searchsortedLeft l₁ v < l₁.length then searchsortedLeft l₁ v
      else l₁.length + searchsortedLeft l₂ v := by
  induction l₁ with
  | nil => simp [searchsortedLeft]
  | cons y ys ih =>
    simp only [List.cons_append, searchsortedLeft, List.length_cons]
    by_cases hy : v ≤ y
    · simp [hy]
    · simp only [if_neg hy, List.append_eq, ih]
      by_cases hlt : searchsortedLeft ys v < ys.length
      · rw [if_pos hlt, if_pos (by omega)]
      · rw [if_neg hlt, if_neg (by omega)]
        omega

theorem searchsortedLeft_eq_length {a : List ℚ} {v : ℚ}
    (h : ∀ y ∈ a, y < v) : searchsortedLeft a v = a.length := by
  induction a with
  | nil => rfl
  | cons y ys ih =>
    have hy : ¬ (v ≤ y) := not_le.mpr (h y (by simp))
    simp [searchsortedLeft, hy, ih (fun z hz => h z (by simp [hz]))]

theorem searchsortedLeft_mem {a : List ℚ} {v : ℚ}
    (hs : List.Sorted (· ≤ ·) a) (hv : v ∈ a) :
    searchsortedLeft a v < a.length ∧ a.getD (searchsortedLeft a v) 0 = v := by
  induction a with
  | nil => cases hv
  | cons y ys ih =>
    rw [List.sorted_cons] at hs
    obtain ⟨hy, hs'⟩ := hs
    simp only [searchsortedLeft]
    by_cases hvy : v ≤ y
    · refine ⟨by simp [hvy], ?_⟩
      simp only [if_pos hvy, List.getD_cons_zero]
      rcases List.mem_cons.mp hv with rfl | hmem
      · rfl
      · exact le_antisymm (hy v hmem) hvy
    · have hmem : v ∈ ys := by
        rcases List.mem_cons.mp hv with rfl | h
        · exact absurd le_rfl hvy
        · exact h
      obtain ⟨h1, h2⟩ := ih hs' hmem
      refine ⟨?_, ?_⟩
      · simp only [if_neg hvy, List.length_cons]
        omega
      · simp only [if_neg hvy, List.getD_cons_succ]
        exact h2

theorem searchsortedRight_le_length (a : List ℚ) (v : ℚ) :
    searchsortedRight a v ≤ a.length := by
  induction a with
  | nil => simp [searchsortedRight]
  | cons y ys ih =>
    simp only [searchsortedRight, List.length_cons]
    split
    · omega
    · omega

theorem getD_le_of_lt_searchsortedRight {a : List ℚ} {v : ℚ} {j : ℕ}
    (hj : j < searchsortedRight a v) : a.getD j 0 ≤ v := by
  induction a generalizing j with
  | nil => simp [searchsortedRight] at hj
  | cons y ys ih =>
    simp only [searchsortedRight] at hj
    split at hj
    · omega
    · rename_i hy
      cases j with
      | zero => simpa using not_lt.mp hy
      | succ j => exact ih (by omega)

theorem le_foldl_max (l : List ℚ) (b : ℚ) : b ≤ l.foldl max b := by
  induction l generalizing b with
  | nil => simp
  | cons y ys ih => exact le_trans (le_max_left b y) (ih (max b y))

theorem mem_le_foldl_max {l : List ℚ} {x : ℚ} (hx : x ∈ l) (b : ℚ) :
    x ≤ l.foldl max b := by
  induction l generalizing b with
  | nil => cases hx
  | cons y ys ih =>
    rcases List.mem_cons.mp hx with rfl | h
    · exact le_trans (le_max_right b x) (le_foldl_max ys (max b x))
    · exact ih h (max b y)

theorem le_npMax_of_mem {l : List ℚ} {x : ℚ} (hx : x ∈ l) : x ≤ npMax l :=
  mem_le_foldl_max hx _

theorem getD_mem {l : List ℚ} {j : ℕ} (h : j < l.length) : l.getD j 0 ∈ l := by
  induction l generalizing j with
  | nil => simp at h
  | cons y ys ih =>
    cases j with
    | zero => simp
    | succ j =>
      simp only [List.getD_cons_succ]
      exact List.mem_cons_of_mem _ (ih (by simpa using h))

theorem shiftedEdges_length (bin_edges : List ℚ) (tb : Option ℚ) :
    (shiftedEdges bin_edges tb).length = bin_edges.length := by
  cases tb <;> simp [shiftedEdges]

theorem shiftedEdges_getD {bin_edges : List ℚ} {tb : Option ℚ} {j : ℕ}
    (h : j < bin_edges.length) :
    (shiftedEdges bin_edges tb).getD j 0 = bin_edges.getD j 0 - tb.getD 0 := by
  cases tb with
  | none => simp [shiftedEdges]
  | some t =>
    simp only [shiftedEdges, Option.getD_some]
    induction bin_edges generalizing j with
    | nil => simp at h
    | cons y ys ih =>
      cases j with
      | zero => simp
      | succ j =>
        simp only [List.map_cons, List.getD_cons_succ]
        exact ih (by simpa using h)

/-- Any bin index strictly below the digitize result points at an edge that
exceeds `x` by at most the lookback. -/
theorem digitize_pred_le {bin_edges : List ℚ} {tb : Option ℚ} {x : ℚ} {j : ℕ}
    (hj : j + 1 ≤ npDigitize x (shiftedEdges bin_edges tb)) :
    j < bin_edges.length ∧ bin_edges.getD j 0 ≤ x + tb.getD 0 := by
  have hlen : npDigitize x (shiftedEdges bin_edges tb) ≤ bin_edges.length := by
    have := searchsortedRight_le_length (shiftedEdges bin_edges tb) x
    simpa [npDigitize, shiftedEdges_length] using this
  have hjlt : j < bin_edges.length := by omega
  have hle : (shiftedEdges bin_edges tb).getD j 0 ≤ x :=
    getD_le_of_lt_searchsortedRight (by simpa [npDigitize] using hj)
  rw [shiftedEdges_getD hjlt] at hle
  exact ⟨hjlt, by linarith⟩

/-! ## Claim theorems -/

/-- C2 counterexample: a two-dimensional `to_be_aligned` together with a
one-dimensional `to_align_to` passes `_align_to`'s validation (its shape
check uses `and`, not `or`), so a call with one multi-dimensional input does
not fail with the shape error the claim demands. -/
theorem claim_C2_counterexample :
    Validation.align_to_validate ⟨true, true, 2⟩ ⟨true, true, 1⟩ = .ok () ∧
    (⟨true, true, 2⟩ : Validation.PyObj).ndim ≠ 1 :=
  ⟨rfl, by decide⟩

/-- C2 (amended): for ndarray inputs, `_align_to` raises the `InvalidShape`
error exactly when *both* inputs are non-one-dimensional; a call where only
one input has more than one dimension passes the shape check.
`_negative_align` performs no shape check at all. -/
theorem claim_C2_amended (a b : Validation.PyObj)
    (ha : a.iterable = true) (hb : b.iterable = true)
    (han : a.isNdarray = true) (hbn : b.isNdarray = true) :
    (Validation.align_to_validate a b = .error .invalidShape ↔
      b.ndim ≠ 1 ∧ a.ndim ≠ 1) ∧
    (∀ c d : Validation.PyObj,
      Validation.negative_align_validate c d ≠ .error .invalidShape) := by
  constructor
  · simp only [Validation.align_to_validate, ha, hb, han, hbn]
    by_cases hc : b.ndim ≠ 1 ∧ a.ndim ≠ 1
    · simp [hc]
    · simp [hc]
  · intro c d h
    simp only [Validation.negative_align_validate] at h
    split at h
    · exact Validation.AlignError.noConfusion (Except.error.inj h)
    · split at h
      · exact Validation.AlignError.noConfusion (Except.error.inj h)
      · exact Except.noConfusion h

theorem claim_C2_witness :
    Validation.align_to_validate ⟨true, true, 2⟩ ⟨true, true, 2⟩ =
      .error .invalidShape :=
  ((claim_C2_amended ⟨true, true, 2⟩ ⟨true, true, 2⟩ rfl rfl rfl rfl).1).mpr
    (by decide)

/-- C3 counterexample: with the default `nan_vals_before_first_bin = False`
and default lookback (`time_before = None`, i.e. `0`), a timestamp before
the first edge is assigned via the wrapped index `-1`: `which_bin([0],
[1, 2])` assigns timestamp `0` the *last* edge `2`, which exceeds the
timestamp by `2 > 0`, and the assignment is not the missing sentinel. -/
theorem claim_C3_counterexample :
    which_bin [(0 : ℚ)] [1, 2] none false none = [some 2] ∧ ¬ ((2 : ℚ) ≤ 0 + 0) :=
  ⟨by decide, by decide⟩

/-- C3 (amended): with `nan_vals_before_first_bin = True`, `which_bin` and
`which_bin_idx` never assign a timestamp a bin whose edge exceeds the
timestamp by more than the lookback (`time_before`, defaulting to `0`):
every non-missing `which_bin` value `v` satisfies `v ≤ x + lookback`, and
every non-missing `which_bin_idx` index is in range with its edge satisfying
the same bound.  With the default `nan_vals_before_first_bin = False`, a
timestamp before the first shifted edge instead wraps around to the last
edge (see the counterexample), so the claimed invariant does not hold for
the defaults. -/
theorem claim_C3_amended (bin_edges : List ℚ) (tb na : Option ℚ) (x : ℚ) :
    (∀ v : ℚ, which_bin_elem bin_edges tb true na x = some v →
      v ≤ x + tb.getD 0) ∧
    (∀ i : Int, which_bin_idx_elem bin_edges tb true na x = some i →
      0 ≤ i ∧ bin_edges.getD i.toNat 0 ≤ x + tb.getD 0) := by
  have hkey : ∀ j : ℕ, j + 1 ≤ npDigitize x (shiftedEdges bin_edges tb) →
      bin_edges.getD j 0 ≤ x + tb.getD 0 := fun j hj => (digitize_pred_le hj).2
  constructor
  · intro v hv
    simp only [which_bin_elem] at hv
    by_cases h0 : ((npDigitize x (shiftedEdges bin_edges tb) : Int) - 1) < 0
    · simp [h0] at hv
    · have hd : 1 ≤ npDigitize x (shiftedEdges bin_edges tb) := by omega
      have hpy : pyGet bin_edges ((npDigitize x (shiftedEdges bin_edges tb) : Int) - 1) =
          bin_edges.getD (npDigitize x (shiftedEdges bin_edges tb) - 1) 0 := by
        simp only [pyGet, if_neg h0]
        congr 1
        omega
      have hbound := hkey (npDigitize x (shiftedEdges bin_edges tb) - 1) (by omega)
      cases na with
      | none =>
        simp only [h0, and_false, if_false] at hv
        obtain rfl : _ = v := Option.some.inj hv
        rw [hpy]
        exact hbound
      | some L =>
        simp only [h0, and_false, if_false] at hv
        split at hv
        · exact Option.noConfusion hv
        · obtain rfl : _ = v := Option.some.inj hv
          rw [hpy]
          exact hbound
  · intro i hi
    simp only [which_bin_idx_elem] at hi
    by_cases h0 : ((npDigitize x (shiftedEdges bin_edges tb) : Int) - 1) < 0
    · simp [h0] at hi
    · have hd : 1 ≤ npDigitize x (shiftedEdges bin_edges tb) := by omega
      have hbound := hkey (npDigitize x (shiftedEdges bin_edges tb) - 1) (by omega)
      cases na with
      | none =>
        simp only [h0, and_false, if_false] at hi
        obtain rfl : _ = i := Option.some.inj hi
        refine ⟨by omega, ?_⟩
        have : ((npDigitize x (shiftedEdges bin_edges tb) : Int) - 1).toNat =
            npDigitize x (shiftedEdges bin_edges tb) - 1 := by omega
        rw [this]
        exact hbound
      | some L =>
        simp only [h0, and_false, if_false] at hi
        split at hi
        · exact Option.noConfusion hi
        · obtain rfl : _ = i := Option.some.inj hi
          refine ⟨by omega, ?_⟩
          have : ((npDigitize x (shiftedEdges bin_edges tb) : Int) - 1).toNat =
              npDigitize x (shiftedEdges bin_edges tb) - 1 := by omega
          rw [this]
          exact hbound

theorem claim_C3_witness : (0 : ℚ) ≤ 1 + 0 :=
  ((claim_C3_amended [0, 9] none none 1).1) 0 (by decide)

/-- The backward pass at a timestamp that is itself a reference element of a
sorted reference array yields latency `0`. -/
theorem neg_align_elem_self_mem {r : List ℚ} {x : ℚ}
    (hs : List.Sorted (· ≤ ·) r) (hx : x ∈ r) :
    neg_align_elem r x = some 0 := by
  obtain ⟨hlt, heq⟩ := searchsortedLeft_mem hs hx
  have hext : searchsortedLeft (negExtended r) x = searchsortedLeft r x := by
    rw [negExtended, searchsortedLeft_append, if_pos hlt]
  have hlen : (negExtended r).length = r.length + 1 := by simp [negExtended]
  have hidx : negAlignIdx r x = searchsortedLeft r x + 1 := by
    simp only [negAlignIdx, hext, hlen]
    rw [if_pos (by omega)]
  have htarget : negAlignTarget r x = x := by
    simp only [negAlignTarget, hidx, pyGet]
    rw [if_neg (by omega)]
    have h1 : ((searchsortedLeft r x + 1 : ℕ) - 1 : Int).toNat = searchsortedLeft r x := by
      omega
    rw [h1, negExtended, List.getD_append _ _ _ _ hlt]
    exact heq
  simp [neg_align_elem, htarget]

/-- C4 counterexample: without a lookback, a timestamp equal to a reference
element does *not* align to it with latency 0: `searchsorted` puts an equal
timestamp at the left of its reference element, and the code subtracts the
element one position earlier, so timestamp `10` against reference `[0, 10]`
yields latency `10` (aligned to `0`), not `0`. -/
theorem claim_C4_counterexample :
    align_around [(10 : ℚ)] [0, 10] none none false = [some 10] ∧
    some (10 : ℚ) ≠ some 0 :=
  ⟨by decide, by decide⟩

/-- C4 (amended): when a lookback `t_before ≥ 0` is provided, a timestamp
exactly equal to an element of the sorted reference array aligns to that
exact element with latency `0` (the backward pass finds it and the merge
keeps a zero backward latency).  Without a lookback the forward pass aligns
such a timestamp to the *preceding* reference element instead (see the
counterexample), so the tie rule holds only in the lookback case. -/
theorem claim_C4_amended (to_align_to : List ℚ) (tb x : ℚ)
    (hs : List.Sorted (· ≤ ·) to_align_to) (hx : x ∈ to_align_to)
    (htb : 0 ≤ tb) :
    align_around_elem to_align_to (some tb) none x = some 0 := by
  simp only [align_around_elem, neg_align_elem_self_mem hs hx, mergeLat, cutoffLat]
  rw [if_pos (neg_nonpos.mpr htb)]

theorem claim_C4_witness : align_around_elem [0, 10] (some 2) none 10 = some 0 :=
  claim_C4_amended [0, 10] 2 10 (by decide) (by decide) (by decide)

/-- C5: for a nonempty reference array, the backward pass maps every
timestamp strictly greater than the reference maximum to the missing
sentinel, so such a timestamp's final latency is exactly the forward-pass
latency (after the cutoff); and whenever the backward pass produces a
non-missing latency, the reference element it subtracted is a genuine
element of the reference array — never the appended virtual element. -/
theorem claim_C5 (to_align_to : List ℚ) (tb : ℚ) (ml : Option ℚ) (x y : ℚ)
    (hne : to_align_to ≠ []) (hx : npMax to_align_to < x) :
    neg_align_elem to_align_to x = none ∧
    align_around_elem to_align_to (some tb) ml x =
      cutoffLat ml (align_to_elem to_align_to x) ∧
    ((neg_align_elem to_align_to y).isSome = true →
      negAlignTarget to_align_to y ∈ to_align_to) := by
  have hn : 1 ≤ to_align_to.length := by
    cases to_align_to with
    | nil => exact absurd rfl hne
    | cons a l => simp
  have hlen : (negExtended to_align_to).length = to_align_to.length + 1 := by
    simp [negExtended]
  have hnone : neg_align_elem to_align_to x = none := by
    have hall : searchsortedLeft to_align_to x = to_align_to.length :=
      searchsortedLeft_eq_length
        (fun z hz => lt_of_le_of_lt (le_npMax_of_mem hz) hx)
    have hext : searchsortedLeft (negExtended to_align_to) x =
        to_align_to.length + searchsortedLeft [npMax to_align_to + 100] x := by
      rw [negExtended, searchsortedLeft_append, hall, if_neg (by omega)]
    by_cases hbig : x ≤ npMax to_align_to + 100
    · have hone : searchsortedLeft [npMax to_align_to + 100] x = 0 := by
        simp [searchsortedLeft, hbig]
      have hidx : negAlignIdx to_align_to x = to_align_to.length := by
        simp only [negAlignIdx, hext, hone, hlen, Nat.add_zero]
        rw [if_neg (by omega)]
      have htarget : negAlignTarget to_align_to x =
          to_align_to.getD (to_align_to.length - 1) 0 := by
        simp only [negAlignTarget, hidx, pyGet]
        rw [if_neg (by omega)]
        have h1 : ((to_align_to.length : Int) - 1).toNat = to_align_to.length - 1 := by
          omega
        rw [h1, negExtended, List.getD_append _ _ _ _ (by omega)]
      have hmem : to_align_to.getD (to_align_to.length - 1) 0 ∈ to_align_to :=
        getD_mem (by omega)
      have hpos : x - negAlignTarget to_align_to x > 0 := by
        rw [htarget]
        have := le_npMax_of_mem hmem
        linarith
      simp [neg_align_elem, hpos]
    · have hone : searchsortedLeft [npMax to_align_to + 100] x = 1 := by
        simp [searchsortedLeft, hbig]
      have hidx : negAlignIdx to_align_to x = to_align_to.length + 1 := by
        simp only [negAlignIdx, hext, hone, hlen]
        rw [if_neg (by omega)]
      have htarget : negAlignTarget to_align_to x = npMax to_align_to + 100 := by
        simp only [negAlignTarget, hidx, pyGet]
        rw [if_neg (by omega)]
        have h1 : ((to_align_to.length + 1 : ℕ) - 1 : Int).toNat = to_align_to.length := by
          omega
        rw [h1, negExtended, List.getD_append_right _ _ _ _ (by omega)]
        simp
      have hpos : x - negAlignTarget to_align_to x > 0 := by
        rw [htarget]
        linarith [not_le.mp hbig]
      simp [neg_align_elem, hpos]
  refine ⟨hnone, ?_, ?_⟩
  · simp [align_around_elem, mergeLat, hnone]
  · intro hy
    by_cases hcase : negAlignIdx to_align_to y ≤ to_align_to.length
    · have hi1 : 1 ≤ negAlignIdx to_align_to y := by
        simp only [negAlignIdx, hlen]
        split <;> omega
      have : negAlignTarget to_align_to y =
          to_align_to.getD ((negAlignIdx to_align_to y : Int) - 1).toNat 0 := by
        simp only [negAlignTarget, pyGet]
        rw [if_neg (by omega), negExtended, List.getD_append _ _ _ _ (by omega)]
      rw [this]
      exact getD_mem (by omega)
    · exfalso
      have hidx : negAlignIdx to_align_to y = to_align_to.length + 1 := by
        have hssl := searchsortedLeft_le_length (negExtended to_align_to) y
        rw [hlen] at hssl
        simp only [negAlignIdx, hlen] at hcase ⊢
        split at hcase
        · omega
        · split
          · omega
          · omega
      have hssl_big : searchsortedLeft (negExtended to_align_to) y =
          to_align_to.length + 1 := by
        simp only [negAlignIdx, hlen] at hidx
        split at hidx
        · omega
        · exact hidx
      have hvirt : (negExtended to_align_to).getD to_align_to.length 0 < y := by
        exact getD_lt_of_lt_searchsortedLeft (by omega)
      have hvirt_val : (negExtended to_align_to).getD to_align_to.length 0 =
          npMax to_align_to + 100 := by
        rw [negExtended, List.getD_append_right _ _ _ _ (by omega)]
        simp
      have htarget : negAlignTarget to_align_to y = npMax to_align_to + 100 := by
        simp only [negAlignTarget, hidx, pyGet]
        rw [if_neg (by omega)]
        have h1 : ((to_align_to.length + 1 : ℕ) - 1 : Int).toNat = to_align_to.length := by
          omega
        rw [h1, ← hvirt_val]
      have hbig : y - negAlignTarget to_align_to y > 0 := by
        rw [htarget, ← hvirt_val]
        linarith
      simp [neg_align_elem, hbig] at hy

theorem claim_C5_witness :
    neg_align_elem [(0 : ℚ), 10] 11 = none :=
  (claim_C5 [0, 10] 2 none 11 5 (by decide) (by decide)).1

theorem mem_insertUnique {x a : ℚ} {l : List ℚ} :
    a ∈ insertUnique x l ↔ a = x ∨ a ∈ l := by
  induction l with
  | nil => simp [insertUnique]
  | cons y ys ih =>
    simp only [insertUnique]
    split
    · simp [List.mem_cons]
    · split
      · rename_i hlt heq
        subst heq
        simp only [List.mem_cons]
        tauto
      · simp only [List.mem_cons, ih]
        tauto

theorem sorted_insertUnique {x : ℚ} {l : List ℚ}
    (hs : List.Sorted (· < ·) l) : List.Sorted (· < ·) (insertUnique x l) := by
  induction l with
  | nil => simp [insertUnique]
  | cons y ys ih =>
    rw [List.sorted_cons] at hs
    obtain ⟨hy, hs'⟩ := hs
    simp only [insertUnique]
    split
    · rename_i hlt
      rw [List.sorted_cons]
      refine ⟨?_, by rw [List.sorted_cons]; exact ⟨hy, hs'⟩⟩
      intro b hb
      rcases List.mem_cons.mp hb with rfl | hb
      · exact hlt
      · exact hlt.trans (hy b hb)
    · split
      · rw [List.sorted_cons]
        exact ⟨hy, hs'⟩
      · rename_i hnlt hne
        rw [List.sorted_cons]
        refine ⟨?_, ih hs'⟩
        intro b hb
        rcases mem_insertUnique.mp hb with rfl | hb
        · exact (not_lt.mp hnlt).lt_of_ne (Ne.symm hne)
        · exact hy b hb

theorem sorted_npUnique (l : List ℚ) : List.Sorted (· < ·) (npUnique l) := by
  induction l with
  | nil => simp [npUnique]
  | cons y ys ih =>
    simp only [npUnique, List.foldr_cons] at ih ⊢
    exact sorted_insertUnique ih

theorem mem_npUnique {a : ℚ} {l : List ℚ} : a ∈ npUnique l ↔ a ∈ l := by
  induction l with
  | nil => simp [npUnique]
  | cons y ys ih =>
    simp only [npUnique, List.foldr_cons] at ih ⊢
    rw [mem_insertUnique, ih, List.mem_cons]

theorem filterMap_zip_eq_filter_map (l : List ℚ) (f : ℚ → Option ℚ) (k : ℚ) :
    (l.zip (l.map f)).filterMap
        (fun p => if p.2 = some k then some (p.1 - k) else none) =
      (l.filter (fun a => f a = some k)).map (fun a => a - k) := by
  induction l with
  | nil => rfl
  | cons a l ih =>
    simp only [List.map_cons, List.zip_cons_cons, List.filterMap_cons, List.filter_cons]
    by_cases h : f a = some k
    · simp [h, ih]
    · simp [h, ih]

theorem filter_append_filter_perm (l : List ℚ) (p q : ℚ → Bool)
    (hdisj : ∀ a, ¬(p a = true ∧ q a = true)) :
    (l.filter p ++ l.filter q).Perm (l.filter (fun a => p a || q a)) := by
  induction l with
  | nil => simp
  | cons a l ih =>
    by_cases hp : p a = true
    · have hq : ¬ q a = true := fun hq => hdisj a ⟨hp, hq⟩
      simp only [List.filter_cons, hp, hq, if_true, if_false, Bool.true_or,
        List.cons_append]
      exact ih.cons a
    · by_cases hq : q a = true
      · simp only [List.filter_cons, hp, hq, if_true, if_false, Bool.false_or]
        exact List.perm_middle.trans (ih.cons a)
      · simp only [List.filter_cons, hp, hq, if_false, Bool.false_or]
        exact ih

theorem flatMap_filter_perm (l : List ℚ) (f : ℚ → Option ℚ) :
    ∀ keys : List ℚ, keys.Nodup →
      (keys.flatMap (fun k => l.filter (fun a => f a = some k))).Perm
        (l.filter (fun a => decide (∃ k ∈ keys, f a = some k))) := by
  intro keys
  induction keys with
  | nil =>
    intro _
    simp
  | cons k ks ih =>
    intro hnd
    rw [List.nodup_cons] at hnd
    obtain ⟨hk, hks⟩ := hnd
    rw [List.flatMap_cons]
    refine ((ih hks).append_left _).trans ?_
    refine (filter_append_filter_perm l _ _ ?_).trans ?_
    · rintro a ⟨h1, h2⟩
      rw [decide_eq_true_eq] at h1 h2
      obtain ⟨k', hk', hfa⟩ := h2
      rw [h1] at hfa
      exact hk (Option.some.inj hfa ▸ hk')
    · have heq : l.filter (fun a =>
          decide (f a = some k) || decide (∃ k' ∈ ks, f a = some k')) =
          l.filter (fun a => decide (∃ k' ∈ k :: ks, f a = some k')) := by
        refine List.filter_congr ?_
        intro a _
        rw [← Bool.decide_or, decide_eq_decide, List.exists_mem_cons_iff]
      rw [heq]

theorem map_sub_add_cancel (l : List ℚ) (k : ℚ) :
    (l.map (fun a => a - k)).map (fun v => v + k) = l := by
  rw [List.map_map]
  have h : ((fun v => v + k) ∘ fun a => a - k) = id := by
    funext a
    simp
  rw [h, List.map_id]

/-- C8: `split_by_bin`'s output keys are the distinct non-missing assigned
bin values in strictly ascending order; each group is the list of
`timestamp - assigned_edge` for the timestamps assigned that edge, in input
order; adding the key back to a group recovers exactly the timestamps with a
non-missing assignment (as a permutation across groups), and timestamps
whose assignment is the missing sentinel appear in no group. -/
theorem claim_C8 (arr bins : List ℚ) (ml tb : Option ℚ) :
    List.Sorted (· < ·) ((split_by_bin arr bins ml tb).map Prod.fst) ∧
    (∀ k : ℚ, k ∈ (split_by_bin arr bins ml tb).map Prod.fst ↔
      some k ∈ arr.map (which_bin_elem bins tb false ml)) ∧
    (∀ k : ℚ, ∀ g : List ℚ, (k, g) ∈ split_by_bin arr bins ml tb →
      g = (arr.filter (fun a => which_bin_elem bins tb false ml a = some k)).map
        (fun a => a - k)) ∧
    ((split_by_bin arr bins ml tb).flatMap
        (fun p => p.2.map (fun v => v + p.1))).Perm
      (arr.filter (fun a => (which_bin_elem bins tb false ml a).isSome)) := by
  set f : ℚ → Option ℚ := which_bin_elem bins tb false ml with hf
  set keys : List ℚ := npUnique ((arr.map f).filterMap id) with hkeys
  have hout : split_by_bin arr bins ml tb =
      keys.map (fun k =>
        (k, (arr.filter (fun a => f a = some k)).map (fun a => a - k))) := by
    simp only [split_by_bin, hkeys, hf]
    exact List.map_congr_left (fun k _ => by rw [filterMap_zip_eq_filter_map])
  have hfst : (split_by_bin arr bins ml tb).map Prod.fst = keys := by
    rw [hout, List.map_map]
    exact List.map_id keys
  refine ⟨?_, ?_, ?_, ?_⟩
  · rw [hfst]
    exact sorted_npUnique _
  · intro k
    rw [hfst, hkeys, mem_npUnique, List.mem_filterMap]
    simp
  · intro k g hmem
    rw [hout, List.mem_map] at hmem
    obtain ⟨k', _, heq⟩ := hmem
    obtain ⟨rfl, rfl⟩ := Prod.mk.inj heq
    rfl
  · have hcov : ∀ a ∈ arr,
        (decide (∃ k ∈ keys, f a = some k)) = (f a).isSome := by
      intro a ha
      rcases hfa : f a with _ | w
      · rw [Option.isSome_none]
        exact decide_eq_false (by rintro ⟨k, -, hak⟩; exact Option.noConfusion hak)
      · rw [Option.isSome_some]
        refine decide_eq_true ⟨w, ?_, rfl⟩
        rw [hkeys, mem_npUnique, List.mem_filterMap]
        refine ⟨some w, ?_, rfl⟩
        have hmm := List.mem_map_of_mem f ha
        rwa [hfa] at hmm
    have hnd : keys.Nodup := (sorted_npUnique _).nodup
    have hstep : (keys.flatMap fun k =>
        ((arr.filter (fun a => f a = some k)).map (fun a => a - k)).map
          (fun v => v + k)).Perm
        (arr.filter (fun a => (f a).isSome)) := by
      have hrw : (fun k : ℚ =>
          ((arr.filter (fun a => f a = some k)).map (fun a => a - k)).map
            (fun v => v + k)) =
          (fun k => arr.filter (fun a => f a = some k)) := by
        funext k
        exact map_sub_add_cancel _ k
      rw [hrw]
      refine (flatMap_filter_perm arr f keys hnd).trans ?_
      rw [List.filter_congr hcov]
    rw [hout, List.flatMap_map]
    exact hstep

theorem claim_C8_witness :
    (0 : ℚ) ∈ (split_by_bin [(1 : ℚ), 2, 3, 10] [0, 9] none none).map Prod.fst :=
  ((claim_C8 [1, 2, 3, 10] [0, 9] none none).2.1 0).mpr (by decide)

/-- C1: the claim says `count_around_events(timestamps, event_times,
window_size)` returns per-event counts, with `[3, 1]` on the documented
example.  The code instead applies the `[::2]` slice to the python *tuple*
`(edges[1:], values)` returned by `binned_array_bins_provided`, so
`bin_array_around_event([1,2,3,10], [0,9], 5)` evaluates to the 1-tuple
holding the trimmed edge array `[5, 9, 14]` — not to any count array.  The
second conjunct shows the claimed counts `[3, 1]` are exactly what slicing
the histogram *values* (the documented intent) would produce. -/
theorem claim_C1_code_evaluation :
    bin_array_around_event [(1 : ℚ), 2, 3, 10] [0, 9] 5 = [Sum.inl [5, 9, 14]] ∧
    sliceStep2 (npHistogram [(1 : ℚ), 2, 3, 10] (eventBins [0, 9] 5)) = [3, 1] := by
  exact ⟨by decide, by decide⟩

/-- C6 counterexample: the claim includes `max_latency = 0`, but the guard
`if max_latency:` is false for a zero `max_latency`, so the cutoff is
skipped: with reference `[0]` and `max_latency = 0`, timestamp `4` yields
latency `4`, which strictly exceeds `0` yet is not overwritten with the
missing sentinel. -/
theorem claim_C6_counterexample :
    align_around [(4 : ℚ)] [0] none (some 0) false = [some 4] ∧ (0 : ℚ) < 4 := by
  exact ⟨by decide, by decide⟩

/-- C6 (amended): when `max_latency` is provided and nonzero, every final
latency strictly exceeding it is overwritten with the missing sentinel; in
particular with reference `[0]` and `max_latency = 5`, timestamp `6` yields
the missing sentinel and timestamp `4` yields latency `4`. -/
theorem claim_C6_amended (to_align_to : List ℚ) (tb : Option ℚ) (m x v : ℚ)
    (hm : m ≠ 0)
    (h : align_around_elem to_align_to tb (some m) x = some v) :
    v ≤ m ∧ align_around [(6 : ℚ), 4] [0] none (some 5) false = [none, some 4] := by
  refine ⟨?_, by decide⟩
  simp only [align_around_elem] at h
  exact cutoffLat_le hm h

theorem claim_C6_witness :
    (4 : ℚ) ≤ 5 ∧ align_around [(6 : ℚ), 4] [0] none (some 5) false = [none, some 4] :=
  claim_C6_amended [0] none 5 4 4 (by decide) (by decide)

/-- C7: with `lookback = t_before` set (and no `max_latency`), an element's
final latency is the backward latency exactly when its magnitude is at most
the lookback, and the forward latency otherwise; with reference `[0, 10]`
and lookback `2`, timestamp `8.5` yields `-1.5` and timestamp `7.9` yields
`7.9`. -/
theorem claim_C7 (to_align_to : List ℚ) (tb x : ℚ) :
    (align_around_elem to_align_to (some tb) none x =
      match neg_align_elem to_align_to x with
      | some v => if |v| ≤ tb then some v else align_to_elem to_align_to x
      | none => align_to_elem to_align_to x) ∧
    align_around [(17/2 : ℚ)] [0, 10] (some 2) none false = [some (-(3/2))] ∧
    align_around [(79/10 : ℚ)] [0, 10] (some 2) none false = [some (79/10)] := by
  refine ⟨?_, by decide, by decide⟩
  rcases h : neg_align_elem to_align_to x with _ | v
  · simp [align_around_elem, mergeLat, cutoffLat, h]
  · have hv : v ≤ 0 := neg_align_elem_nonpos h
    simp only [align_around_elem, mergeLat, cutoffLat, h]
    rw [abs_of_nonpos hv]
    simp only [ge_iff_le, neg_le]

/-- C9: calling the alignment operation on two non-sequence scalars (neither
iterable nor an `np.ndarray`) fails at the eager validation of `_align_to`
with a `TypeError` — an `InvalidArgument` error in the spec's taxonomy —
rather than returning a value. -/
theorem claim_C9 (a b : Validation.PyObj)
    (ha : a.iterable = false) (han : a.isNdarray = false)
    (hb : b.iterable = false) (hbn : b.isNdarray = false) :
    Validation.align_to_validate a b = .error .notNdarray ∧
    (Validation.AlignError.notNdarray).isInvalidArgument = true := by
  refine ⟨?_, rfl⟩
  simp [Validation.align_to_validate, ha, han, hb, hbn]

theorem claim_C9_witness :
    Validation.align_to_validate ⟨false, false, 0⟩ ⟨false, false, 0⟩ =
      .error .notNdarray ∧
    (Validation.AlignError.notNdarray).isInvalidArgument = true :=
  claim_C9 ⟨false, false, 0⟩ ⟨false, false, 0⟩ rfl rfl rfl rfl

/-- C10: `align_around` with `drop = True` returns no missing sentinels, so
dropping a second time changes nothing, and with `drop = False` the output
has exactly one latency per input element. -/
theorem claim_C10 (x r : List ℚ) (tb ml : Option ℚ) :
    (∀ o ∈ align_around x r tb ml true, o.isSome = true) ∧
    (align_around x r tb ml true).filter (fun o => o.isSome) =
      align_around x r tb ml true ∧
    (align_around x r tb ml false).length = x.length := by
  refine ⟨?_, ?_, ?_⟩
  · intro o ho
    simp only [align_around, if_pos rfl] at ho
    exact (List.mem_filter.mp ho).2
  · simp only [align_around, if_pos rfl, List.filter_filter]
    simp
  · simp [align_around]

theorem claim_C10_witness : (some (4 : ℚ)).isSome = true :=
  (claim_C10 [4] [0] none none).1 (some 4) (by decide)

end

end Binit
